import Mathlib

/-!
Verification of the `git-commit-mine` vanity-hash miner (`src/main.rs`).

The development is a shallow embedding of the Rust source: byte strings
become `List Nat`, the commit object becomes a structure of three byte
lists, the incremental SHA-1 hasher becomes an arbitrary function of the
full byte stream fed through its `update` calls, candidates become a
structure of two naturals, and the coordinator's consumer loop becomes a
recursion over the list of arriving candidates paired with the wall-clock
elapsed time sampled at each arrival.
-/

namespace GitCommitMine

/-- UTF-8 encoding of a single character, as the list of its byte values.
This models how Rust's `str::as_bytes` renders each `char` of a string
literal (all literals appearing in the source are ASCII, where the
encoding is the identity on code points). -/
def utf8_encode_char (c : Char) : List Nat :=
  let n := c.toNat
  if n < 128 then [n]
  else if n < 2048 then [192 + n / 64, 128 + n % 64]
  else if n < 65536 then [224 + n / 4096, 128 + (n / 64) % 64, 128 + n % 64]
  else [240 + n / 262144, 128 + (n / 4096) % 64, 128 + (n / 64) % 64, 128 + n % 64]

/-- Models `string_to_vec` from the source: the UTF-8 bytes of a string. -/
def string_to_vec (s : String) : List Nat :=
  s.toList.flatMap utf8_encode_char

/-- Models `format!("{}", n).as_bytes()` for an unsigned integer:
the ASCII bytes of the decimal representation of `n`. -/
def format_decimal (n : Nat) : List Nat :=
  (Nat.toDigits 10 n).map Char.toNat

/-- Models `base_10_length` from the source: the byte length of the
decimal formatting of `n` (the source computes it as
`format!("{}", n).as_bytes().len()`). -/
def base_10_length (n : Nat) : Nat :=
  (format_decimal n).length

/-- The commit object model: three immutable byte sequences.  The Rust
field `prefix` is named `pfx` here because `prefix` is a reserved word
in Lean. -/
structure Commit where
  metadata : List Nat
  message : List Nat
  pfx : List Nat
deriving DecidableEq

/-- Models `Commit::length`: `metadata.len() + 2 + message.len()`. -/
def Commit.length (c : Commit) : Nat :=
  c.metadata.length + 2 + c.message.length

/-- Models `Commit::prefix_length`:
`self.length() + self.prefix.len() + 1 + base_10_length(nonce) + 1`. -/
def Commit.prefix_length (c : Commit) (nonce : Nat) : Nat :=
  Commit.length c + c.pfx.length + 1 + base_10_length nonce + 1

/-- One `update` call of the incremental hasher: the hasher state is the
byte stream accumulated so far, and `update` appends the new chunk. -/
def sha1_update (state chunk : List Nat) : List Nat :=
  state ++ chunk

/-- Models `format!("commit {}\0", n).as_bytes()`: the object header,
`"commit "` followed by the decimal length and a NUL byte. -/
def format_commit_header (n : Nat) : List Nat :=
  string_to_vec "commit " ++ format_decimal n ++ [0]

/-- Models `Commit::sha1`.  The SHA-1 compression itself lives in an
external crate; it is abstracted as an arbitrary function `H` of the
complete byte stream fed through the `update` calls, whose sequence is
taken verbatim from the source. -/
def Commit.sha1 (c : Commit) (H : List Nat → List Nat) : List Nat :=
  H (sha1_update (sha1_update (sha1_update (sha1_update []
      (format_commit_header (Commit.length c))) c.metadata)
      (string_to_vec "\n\n")) c.message)

/-- Models `format!(" {0}\n\n", nonce).as_bytes()`: a space, the decimal
nonce, and the blank-line separator. -/
def format_nonce_trailer (nonce : Nat) : List Nat :=
  string_to_vec " " ++ format_decimal nonce ++ string_to_vec "\n\n"

/-- Models `Commit::annotate`, with the hash function abstracted exactly
as in `Commit.sha1`; the `update` sequence is taken verbatim from the
source. -/
def Commit.annotate (c : Commit) (H : List Nat → List Nat) (nonce : Nat) : List Nat :=
  H (sha1_update (sha1_update (sha1_update (sha1_update (sha1_update (sha1_update []
      (format_commit_header (Commit.prefix_length c nonce))) c.metadata)
      (string_to_vec "\n")) c.pfx) (format_nonce_trailer nonce)) c.message)

/-- Models `Commit::find_splitting_index`: the position of the first
adjacent pair of newline bytes, or the length of the input when no such
pair exists (the source zips the byte iterator with itself skipped by
one and takes `position`). -/
def find_splitting_index (bytes : List Nat) : Nat :=
  match List.findIdx? (fun p => p.1 == 10 && p.2 == 10) (bytes.zip bytes.tail) with
  | some i => i
  | none => bytes.length

/-- Models `Commit::split_bytes`: `metadata` is the first
`find_splitting_index` bytes, `message` is everything from two past that
index. -/
def split_bytes (bytes : List Nat) : List Nat × List Nat :=
  let i := find_splitting_index bytes
  (bytes.take i, bytes.drop (i + 2))

/-- Models `count_zeros` from the source: the position of the first
character different from `'0'` in the hex string, or the whole length
when every character is `'0'` (the source is a `for` loop with an early
return of the index). -/
def count_zeros (hash : List Char) : Nat :=
  match List.findIdx? (fun c => c != '0') hash with
  | some i => i
  | none => hash.length

/-- Lowercase hexadecimal digit character for a value below 16. -/
def hex_char (n : Nat) : Char :=
  if n < 10 then Char.ofNat (48 + n) else Char.ofNat (87 + n)

/-- Modelled from the spec: the canonical lowercase hexadecimal string of
a digest, two hex characters per byte (this is `Digest::to_string` of the
external sha1 crate, which is not part of this repository). -/
def digest_to_string (d : List Nat) : List Char :=
  d.flatMap (fun b => [hex_char (b / 16), hex_char (b % 16)])

/-- Models the `Nugget` candidate struct: a nonce and its leading-zero
count. -/
structure Nugget where
  nonce : Nat
  zeros : Nat
deriving DecidableEq

/-- Models `impl Ord for Nugget`: comparison delegates to the `zeros`
field alone. -/
def Nugget.cmp (a b : Nugget) : Ordering :=
  compare a.zeros b.zeros

/-- Models `impl PartialEq for Nugget`: equality of the `zeros` fields
alone. -/
def Nugget.eq (a b : Nugget) : Bool :=
  a.zeros == b.zeros

/-- The `less-or-equal` relation induced by `Nugget.cmp` (Rust's
`PartialOrd::le` holds when the comparison is not `Greater`). -/
def Nugget.le (a b : Nugget) : Prop :=
  Nugget.cmp a b ≠ Ordering.gt

instance (a b : Nugget) : Decidable (Nugget.le a b) :=
  inferInstanceAs (Decidable (Nugget.cmp a b ≠ Ordering.gt))

/-- One adoption step of the consumer loop: the body of
`if best.cmp(&b) == Ordering::Less { best = b; }`. -/
def consume_step (best b : Nugget) : Nugget :=
  if Nugget.cmp best b = Ordering.lt then b else best

/-- Rust's `std::time::Duration`: whole seconds and a nanosecond part.
Real `Duration` values satisfy `secs < 2^64` and `nanos < 10^9`; every
concrete instance used below is of that representable form. -/
structure Duration where
  secs : Nat
  nanos : Nat
deriving DecidableEq

/-- The strict order on durations (Rust derives it lexicographically on
`(secs, nanos)`). -/
def Duration.lt (a b : Duration) : Prop :=
  a.secs < b.secs ∨ (a.secs = b.secs ∧ a.nanos < b.nanos)

instance (a b : Duration) : Decidable (Duration.lt a b) :=
  inferInstanceAs (Decidable (a.secs < b.secs ∨ (a.secs = b.secs ∧ a.nanos < b.nanos)))

/-- The largest value of Rust's `u64`. -/
def u64_max : Nat := 2 ^ 64 - 1

/-- Models the timeout setup in `main`:
`Duration::new(match opt.timeout { 0 => u64::MAX, _ => opt.timeout }, 0)`. -/
def effective_timeout (t : Nat) : Duration :=
  Duration.mk (if t = 0 then u64_max else t) 0

/-- The stop condition evaluated after each received candidate:
`best.zeros >= opt.zeros || start.elapsed() > timeout`. -/
def stop_cond (target : Nat) (timeout : Duration) (best : Nugget) (elapsed : Duration) : Prop :=
  target ≤ best.zeros ∨ Duration.lt timeout elapsed

instance (target : Nat) (timeout : Duration) (best : Nugget) (elapsed : Duration) :
    Decidable (stop_cond target timeout best elapsed) :=
  inferInstanceAs (Decidable (target ≤ best.zeros ∨ Duration.lt timeout elapsed))

/-- Models the consumer loop of `main` (`for b in receiver { ... }`).
Each arrival pairs the received candidate with the elapsed wall-clock
duration sampled when the stop condition is checked.  The boolean result
records how the loop ended: `true` for a `break` on a stop condition,
`false` for the receiver iterator ending because the channel became
disconnected. -/
def consumer_loop (target : Nat) (timeout : Duration) :
    Nugget → List (Nugget × Duration) → Nugget × Bool
  | best, [] => (best, false)
  | best, (b, elapsed) :: rest =>
    let best' := consume_step best b
    if stop_cond target timeout best' elapsed then (best', true)
    else consumer_loop target timeout best' rest

/-- How the coordinator process ends: printing the final best with a
success exit status, or aborting. -/
inductive ProcessEnd where
  | success : Nugget → ProcessEnd
  | abort : ProcessEnd
deriving DecidableEq

/-- Models the tail of `main`: whatever way the receiver loop ended, the
code falls through to `println!("Best result: ...")` and returns, so the
process end is always a successful print of the loop's final best; no
abort path exists after the loop. -/
def coordinator_end (target cfg_timeout : Nat) (arrivals : List (Nugget × Duration)) :
    ProcessEnd :=
  ProcessEnd.success
    (consumer_loop target (effective_timeout cfg_timeout) (Nugget.mk 0 0) arrivals).1

/-- Statement-side predicate: position `i` of `b` starts an adjacent
pair of newline bytes. -/
def is_separator_at (b : List Nat) (i : Nat) : Prop :=
  b.get? i = some 10 ∧ b.get? (i + 1) = some 10

instance (b : List Nat) (i : Nat) : Decidable (is_separator_at b i) :=
  inferInstanceAs (Decidable (b.get? i = some 10 ∧ b.get? (i + 1) = some 10))

/-- Statement-side function: the global best after the first `n`
arrivals have been processed, starting from `init`. -/
def bests_after (init : Nugget) (arrivals : List (Nugget × Duration)) (n : Nat) : Nugget :=
  ((arrivals.take n).map Prod.fst).foldl consume_step init

/-! ### Byte values of the string literals used by the serializer -/

lemma stv_newline : string_to_vec "\n" = [10] := by decide

lemma stv_space : string_to_vec " " = [32] := by decide

lemma stv_blank_line : string_to_vec "\n\n" = [10, 10] := by decide

/-- C1: `annotatedDigest(nonce)` hashes exactly the bytes
`"commit " ++ decimal(annotatedLength(nonce)) ++ NUL ++ metadata ++ "\n"
++ prefix ++ " " ++ decimal(nonce) ++ "\n\n" ++ message`, and the
declared length `annotatedLength(nonce) = length() + prefix.byteLength +
1 + digitCount(nonce) + 1` equals the byte length of the content that
follows the NUL. -/
theorem annotate_hashes_spec_bytes (H : List Nat → List Nat) (c : Commit) (nonce : Nat) :
    Commit.annotate c H nonce =
      H (string_to_vec "commit " ++ format_decimal (Commit.prefix_length c nonce) ++ [0]
          ++ c.metadata ++ string_to_vec "\n" ++ c.pfx ++ string_to_vec " "
          ++ format_decimal nonce ++ string_to_vec "\n\n" ++ c.message)
    ∧ Commit.prefix_length c nonce
        = Commit.length c + c.pfx.length + 1 + base_10_length nonce + 1
    ∧ Commit.prefix_length c nonce
        = (c.metadata ++ string_to_vec "\n" ++ c.pfx ++ string_to_vec " "
            ++ format_decimal nonce ++ string_to_vec "\n\n" ++ c.message).length := by
  refine ⟨?_, rfl, ?_⟩
  · simp [Commit.annotate, sha1_update, format_commit_header, format_nonce_trailer,
      List.append_assoc]
  · simp [Commit.prefix_length, Commit.length, base_10_length, stv_newline, stv_space,
      stv_blank_line, List.length_append]
    omega

/-- C3: `digest()` hashes exactly the bytes `"commit " ++
decimal(length()) ++ NUL ++ metadata ++ "\n\n" ++ message`, where
`length() = metadata.byteLength + 2 + message.byteLength`; the declared
length equals the byte length of the content after the NUL, and the
example `metadata = "fooo"`, `message = "barbar"` gives `length() = 12`. -/
theorem sha1_hashes_spec_bytes (H : List Nat → List Nat) (c : Commit) :
    Commit.sha1 c H =
      H (string_to_vec "commit " ++ format_decimal (Commit.length c) ++ [0]
          ++ c.metadata ++ string_to_vec "\n\n" ++ c.message)
    ∧ Commit.length c = c.metadata.length + 2 + c.message.length
    ∧ Commit.length c = (c.metadata ++ string_to_vec "\n\n" ++ c.message).length
    ∧ Commit.length (Commit.mk (string_to_vec "fooo") (string_to_vec "barbar") []) = 12 := by
  refine ⟨?_, rfl, ?_, by decide⟩
  · simp [Commit.sha1, sha1_update, format_commit_header, List.append_assoc]
  · simp [Commit.length, stv_blank_line, List.length_append]
    omega

/-! ### The metadata / message split -/

lemma sep_nil (j : Nat) : ¬ is_separator_at [] j := by
  rintro ⟨h, -⟩
  simp [is_separator_at] at h

lemma sep_singleton (a : Nat) (j : Nat) : ¬ is_separator_at [a] j := by
  rintro ⟨h1, h2⟩
  cases j with
  | zero => simp at h2
  | succ n => simp at h1

lemma sep_cons_zero (a b : Nat) (t : List Nat) :
    is_separator_at (a :: b :: t) 0 ↔ a = 10 ∧ b = 10 := by
  simp [is_separator_at]

lemma sep_cons_succ (x : Nat) (l : List Nat) (j : Nat) :
    is_separator_at (x :: l) (j + 1) ↔ is_separator_at l j := by
  simp [is_separator_at]

lemma fsi_cons_cons (a b : Nat) (t : List Nat) :
    find_splitting_index (a :: b :: t) =
      if a == 10 && b == 10 then 0 else find_splitting_index (b :: t) + 1 := by
  unfold find_splitting_index
  simp only [List.tail_cons, List.zip_cons_cons, List.findIdx?_cons]
  by_cases h : (a == 10 && b == 10) = true
  · simp [h]
  · rw [if_neg h, if_neg h]
    rw [List.findIdx?_succ]
    cases hfind : List.findIdx? (fun p => p.1 == 10 && p.2 == 10) ((b :: t).zip t) with
    | none => simp [hfind]
    | some i => simp [hfind]

/-- `find_splitting_index` either reports that no adjacent newline pair
exists (returning the input length), or returns the least position of an
adjacent newline pair. -/
lemma fsi_spec (b : List Nat) :
    (find_splitting_index b = b.length ∧ ∀ j, ¬ is_separator_at b j)
    ∨ (is_separator_at b (find_splitting_index b)
        ∧ ∀ j, j < find_splitting_index b → ¬ is_separator_at b j) := by
  induction b with
  | nil => exact Or.inl ⟨rfl, sep_nil⟩
  | cons a t ih =>
    cases t with
    | nil => exact Or.inl ⟨rfl, sep_singleton a⟩
    | cons b' t' =>
      rw [fsi_cons_cons]
      by_cases hab : (a == 10 && b' == 10) = true
      · right
        rw [if_pos hab]
        have hab' : a = 10 ∧ b' = 10 := by
          simpa using hab
        exact ⟨(sep_cons_zero a b' t').mpr hab', fun j hj => absurd hj (Nat.not_lt_zero j)⟩
      · rw [if_neg hab]
        have hab' : ¬ (a = 10 ∧ b' = 10) := by
          simpa using hab
        rcases ih with ⟨hlen, hnone⟩ | ⟨hsep, hmin⟩
        · left
          refine ⟨by rw [hlen]; rfl, fun j => ?_⟩
          cases j with
          | zero => exact fun hs => hab' ((sep_cons_zero a b' t').mp hs)
          | succ n => exact fun hs => hnone n ((sep_cons_succ a (b' :: t') n).mp hs)
        · right
          refine ⟨(sep_cons_succ a (b' :: t') _).mpr hsep, fun j hj => ?_⟩
          cases j with
          | zero => exact fun hs => hab' ((sep_cons_zero a b' t').mp hs)
          | succ n =>
            exact fun hs => hmin n (by omega) ((sep_cons_succ a (b' :: t') n).mp hs)

/-- Reinserting the two newline bytes at a separator position
reconstructs the original byte sequence. -/
lemma take_append_sep_drop :
    ∀ (b : List Nat) (i : Nat), is_separator_at b i →
      b.take i ++ (10 :: 10 :: b.drop (i + 2)) = b := by
  intro b
  induction b with
  | nil => exact fun i hi => absurd hi (sep_nil i)
  | cons x t ih =>
    intro i hi
    cases i with
    | zero =>
      obtain ⟨h1, h2⟩ := hi
      have hx : x = 10 := by simpa using h1
      cases t with
      | nil => simp at h2
      | cons y t' =>
        have hy : y = 10 := by simpa using h2
        simp [hx, hy]
    | succ n =>
      have ht : is_separator_at t n := (sep_cons_succ x t n).mp hi
      have := ih n ht
      simpa [List.take_succ_cons, List.drop_succ_cons] using this

/-- C2: construction splits the raw bytes at the first adjacent pair of
newline bytes — metadata is everything before it and message everything
after the two newlines — and when no such pair exists metadata is the
whole input and message is empty; in particular on the two examples from
the spec. -/
theorem split_bytes_first_separator (b : List Nat) :
    (∀ i, is_separator_at b i → (∀ j, j < i → ¬ is_separator_at b j) →
        split_bytes b = (b.take i, b.drop (i + 2)))
    ∧ ((∀ i, ¬ is_separator_at b i) → split_bytes b = (b, []))
    ∧ split_bytes (string_to_vec "asdf\n\nqwer") = (string_to_vec "asdf", string_to_vec "qwer")
    ∧ split_bytes (string_to_vec "asdf") = (string_to_vec "asdf", []) := by
  refine ⟨?_, ?_, by decide, by decide⟩
  · intro i hi hmin
    rcases fsi_spec b with ⟨hlen, hnone⟩ | ⟨hsep, hfmin⟩
    · exact absurd hi (hnone i)
    · have hieq : i = find_splitting_index b := by
        by_contra hne
        rcases Nat.lt_or_ge i (find_splitting_index b) with hlt | hge
        · exact hfmin i hlt hi
        · exact hmin _ (by omega) hsep
      rw [hieq]
      rfl
  · intro hnone
    rcases fsi_spec b with ⟨hlen, -⟩ | ⟨hsep, -⟩
    · simp [split_bytes, hlen, List.take_length, List.drop_eq_nil_of_le]
    · exact absurd hsep (hnone _)

/-- C2 witness: the first conjunct of `split_bytes_first_separator`
applied at the concrete input `[97, 10, 10, 98]` with first separator
position `1`. -/
theorem split_bytes_first_separator_witness :
    split_bytes [97, 10, 10, 98] = ([97, 10, 10, 98].take 1, [97, 10, 10, 98].drop (1 + 2)) :=
  (split_bytes_first_separator [97, 10, 10, 98]).1 1 (by decide)
    (fun j hj => by
      have hj0 : j = 0 := by omega
      subst hj0
      decide)

/-- C10: the split is lossless exactly when a separator exists —
reinserting the blank line reconstructs the input when it contains an
adjacent newline pair, and otherwise appends two newline bytes that were
never present in the input. -/
theorem split_bytes_reconstruction (b : List Nat) :
    ((∃ i, is_separator_at b i) →
        (split_bytes b).1 ++ [10, 10] ++ (split_bytes b).2 = b)
    ∧ ((∀ i, ¬ is_separator_at b i) →
        (split_bytes b).1 ++ [10, 10] ++ (split_bytes b).2 = b ++ [10, 10]) := by
  constructor
  · rintro ⟨i, hi⟩
    rcases fsi_spec b with ⟨-, hnone⟩ | ⟨hsep, -⟩
    · exact absurd hi (hnone i)
    · show b.take (find_splitting_index b) ++ [10, 10]
          ++ b.drop (find_splitting_index b + 2) = b
      rw [List.append_assoc]
      exact take_append_sep_drop b _ hsep
  · intro hnone
    have hsplit : split_bytes b = (b, []) :=
      (split_bytes_first_separator b).2.1 hnone
    rw [hsplit]
    simp

/-- C10 witness: the separator case of `split_bytes_reconstruction` at
the concrete input `[97, 10, 10, 98]`. -/
theorem split_bytes_reconstruction_witness :
    (split_bytes [97, 10, 10, 98]).1 ++ [10, 10] ++ (split_bytes [97, 10, 10, 98]).2
      = [97, 10, 10, 98] :=
  (split_bytes_reconstruction [97, 10, 10, 98]).1 ⟨1, by decide⟩

/-! ### The candidate scorer -/

lemma count_zeros_nil : count_zeros [] = 0 := rfl

lemma count_zeros_cons (c : Char) (s : List Char) :
    count_zeros (c :: s) = if c = '0' then count_zeros s + 1 else 0 := by
  unfold count_zeros
  rw [List.findIdx?_cons]
  by_cases h : c = '0'
  · have hp : (c != '0') = false := by simp [h]
    rw [hp]
    simp only [Bool.false_eq_true, if_false, if_pos h]
    rw [List.findIdx?_succ]
    cases hfind : List.findIdx? (fun x => x != '0') s with
    | none => simp [hfind]
    | some i => simp [hfind]
  · have hp : (c != '0') = true := by simp [h]
    rw [hp]
    simp [h]

lemma count_zeros_eq_takeWhile (s : List Char) :
    count_zeros s = (s.takeWhile (fun c => c == '0')).length := by
  induction s with
  | nil => rfl
  | cons c s ih =>
    rw [count_zeros_cons]
    by_cases h : c = '0'
    · simp [List.takeWhile_cons, h, ih]
    · simp [List.takeWhile_cons, h]

lemma count_zeros_le (s : List Char) : count_zeros s ≤ s.length := by
  induction s with
  | nil => simp [count_zeros_nil]
  | cons c s ih =>
    rw [count_zeros_cons]
    by_cases h : c = '0'
    · simp only [if_pos h, List.length_cons]
      omega
    · simp only [if_neg h, List.length_cons]
      omega

lemma count_zeros_eq_length_iff (s : List Char) :
    count_zeros s = s.length ↔ ∀ c ∈ s, c = '0' := by
  induction s with
  | nil => simp [count_zeros_nil]
  | cons c s ih =>
    rw [count_zeros_cons]
    by_cases h : c = '0'
    · simp [h, ih]
    · have hle := count_zeros_le s
      simp only [if_neg h, List.length_cons]
      constructor
      · intro h0
        omega
      · intro hall
        exact absurd (hall c (List.mem_cons_self c s)) h

lemma digest_to_string_length (d : List Nat) :
    (digest_to_string d).length = 2 * d.length := by
  induction d with
  | nil => rfl
  | cons b d ih =>
    simp [digest_to_string] at ih ⊢
    omega

/-- C4: `count_zeros` returns the length of the leading run of `'0'`
characters of the hex string: it equals the `takeWhile`-length of that
run, is `0` when the string starts with a character other than `'0'`,
equals the full length exactly when every character is `'0'`, and on the
hex rendering of a digest it always lies within `[0, digestHexLength]`
where the hex length is twice the digest's byte length. -/
theorem count_zeros_leading_run (s : List Char) (d : List Nat) :
    count_zeros s = (s.takeWhile (fun c => c == '0')).length
    ∧ count_zeros s ≤ s.length
    ∧ (count_zeros s = s.length ↔ ∀ c ∈ s, c = '0')
    ∧ (∀ c t, s = c :: t → c ≠ '0' → count_zeros s = 0)
    ∧ count_zeros (digest_to_string d) ≤ 2 * d.length := by
  refine ⟨count_zeros_eq_takeWhile s, count_zeros_le s, count_zeros_eq_length_iff s,
    ?_, ?_⟩
  · intro c t hs hc
    subst hs
    rw [count_zeros_cons, if_neg hc]
  · rw [← digest_to_string_length d]
    exact count_zeros_le _

/-- C4 witness: `count_zeros_leading_run` applied at the concrete hex
string `"a0"` (which does not start with `'0'`). -/
theorem count_zeros_leading_run_witness : count_zeros ['a', '0'] = 0 :=
  (count_zeros_leading_run ['a', '0'] []).2.2.2.1 'a' ['0'] rfl (by decide)

/-! ### The candidate ordering -/

lemma nugget_le_iff (a b : Nugget) : Nugget.le a b ↔ a.zeros ≤ b.zeros := by
  unfold Nugget.le Nugget.cmp
  rw [ne_eq, Nat.compare_eq_gt]
  omega

/-- C5: the ordering on candidates is determined solely by the zero
count — candidates with equal zero counts compare equal whatever their
nonces — and together with its induced equality it is reflexive,
antisymmetric, transitive, and total. -/
theorem nugget_ordering_total_consistent (a b c a2 b2 : Nugget) :
    (a.zeros = a2.zeros → b.zeros = b2.zeros → Nugget.cmp a b = Nugget.cmp a2 b2)
    ∧ (a.zeros = b.zeros → Nugget.cmp a b = Ordering.eq ∧ Nugget.eq a b = true)
    ∧ Nugget.le a a
    ∧ (Nugget.le a b → Nugget.le b a → Nugget.eq a b = true)
    ∧ (Nugget.le a b → Nugget.le b c → Nugget.le a c)
    ∧ (Nugget.le a b ∨ Nugget.le b a) := by
  refine ⟨?_, ?_, ?_, ?_, ?_, ?_⟩
  · intro ha hb
    unfold Nugget.cmp
    rw [ha, hb]
  · intro h
    unfold Nugget.cmp Nugget.eq
    rw [h]
    simp [Nat.compare_eq_eq]
  · exact (nugget_le_iff a a).mpr (Nat.le_refl _)
  · intro h1 h2
    rw [nugget_le_iff] at h1 h2
    unfold Nugget.eq
    simp
    omega
  · intro h1 h2
    rw [nugget_le_iff] at h1 h2 ⊢
    omega
  · rw [nugget_le_iff, nugget_le_iff]
    omega

/-- C5 witness: antisymmetry from `nugget_ordering_total_consistent` at
two concrete candidates with equal zero count and different nonces. -/
theorem nugget_ordering_witness : Nugget.eq (Nugget.mk 1 3) (Nugget.mk 2 3) = true :=
  (nugget_ordering_total_consistent (Nugget.mk 1 3) (Nugget.mk 2 3)
    (Nugget.mk 0 0) (Nugget.mk 0 0) (Nugget.mk 0 0)).2.2.2.1 (by decide) (by decide)

/-! ### The consumer loop: adoption is monotone -/

lemma consume_step_lt (best b : Nugget) (h : best.zeros < b.zeros) :
    consume_step best b = b := by
  unfold consume_step Nugget.cmp
  rw [if_pos (Nat.compare_eq_lt.mpr h)]

lemma consume_step_not_lt (best b : Nugget) (h : ¬ best.zeros < b.zeros) :
    consume_step best b = best := by
  unfold consume_step Nugget.cmp
  rw [if_neg]
  intro hc
  exact h (Nat.compare_eq_lt.mp hc)

lemma zeros_le_consume_step (best b : Nugget) :
    best.zeros ≤ (consume_step best b).zeros := by
  by_cases h : best.zeros < b.zeros
  · rw [consume_step_lt best b h]
    omega
  · rw [consume_step_not_lt best b h]

lemma scanl_consume_head (init : Nugget) (l : List Nugget) :
    (List.scanl consume_step init l).head? = some init := by
  cases l <;> simp [List.scanl]

lemma chain_scanl_consume (l : List Nugget) :
    ∀ init : Nugget,
      List.Chain' (fun x y => x.zeros ≤ y.zeros) (List.scanl consume_step init l) := by
  induction l with
  | nil =>
    intro init
    simp [List.scanl]
  | cons b l ih =>
    intro init
    rw [List.scanl_cons, List.singleton_append, List.chain'_cons']
    refine ⟨fun y hy => ?_, ih (consume_step init b)⟩
    rw [scanl_consume_head] at hy
    cases hy
    exact zeros_le_consume_step init b

/-- C6: for any sequence of candidates arriving at the coordinator, the
sequence of values successively held as global best is non-decreasing in
zero count, and the global best is replaced exactly when the incoming
candidate's zero count strictly exceeds the current one. -/
theorem consumer_adopted_monotone (init best b : Nugget) (l : List Nugget) :
    List.Chain' (fun x y => x.zeros ≤ y.zeros) (List.scanl consume_step init l)
    ∧ (best.zeros < b.zeros → consume_step best b = b)
    ∧ (¬ best.zeros < b.zeros → consume_step best b = best) :=
  ⟨chain_scanl_consume l init, consume_step_lt best b, consume_step_not_lt best b⟩

/-- C6 witness: `consumer_adopted_monotone` at concrete candidates —
a strictly better candidate replaces the best. -/
theorem consumer_adopted_monotone_witness :
    consume_step (Nugget.mk 0 0) (Nugget.mk 3 1) = Nugget.mk 3 1 :=
  (consumer_adopted_monotone (Nugget.mk 0 0) (Nugget.mk 0 0) (Nugget.mk 3 1) []).2.1
    (by decide)

/-! ### The consumer loop: stop conditions -/

lemma consumer_loop_nil (t : Nat) (T : Duration) (best : Nugget) :
    consumer_loop t T best [] = (best, false) := rfl

lemma consumer_loop_cons (t : Nat) (T : Duration) (best b : Nugget) (e : Duration)
    (rest : List (Nugget × Duration)) :
    consumer_loop t T best ((b, e) :: rest) =
      if stop_cond t T (consume_step best b) e then (consume_step best b, true)
      else consumer_loop t T (consume_step best b) rest := rfl

lemma bests_after_zero (init : Nugget) (l : List (Nugget × Duration)) :
    bests_after init l 0 = init := by
  simp [bests_after]

lemma bests_after_cons (init : Nugget) (p : Nugget × Duration)
    (l : List (Nugget × Duration)) (n : Nat) :
    bests_after init (p :: l) (n + 1) = bests_after (consume_step init p.1) l n := by
  simp [bests_after, List.take_succ_cons]

/-- If no processed candidate triggers a stop condition, the loop runs
through the whole arrival list and ends by channel disconnection,
holding the fold of all candidates. -/
lemma consumer_loop_no_stop (t : Nat) (T : Duration) :
    ∀ (l : List (Nugget × Duration)) (init : Nugget),
      (∀ k, (hk : k < l.length) →
        ¬ stop_cond t T (bests_after init l (k + 1)) (l.get ⟨k, hk⟩).2) →
      consumer_loop t T init l = (bests_after init l l.length, false) := by
  intro l
  induction l with
  | nil =>
    intro init h
    rw [consumer_loop_nil, List.length_nil, bests_after_zero]
  | cons p rest ih =>
    intro init h
    obtain ⟨b, e⟩ := p
    rw [consumer_loop_cons]
    have h0 : ¬ stop_cond t T (consume_step init b) e := by
      have := h 0 (by simp)
      rw [bests_after_cons, bests_after_zero] at this
      simpa using this
    have hrest : ∀ k, (hk : k < rest.length) →
        ¬ stop_cond t T (bests_after (consume_step init b) rest (k + 1))
          (rest.get ⟨k, hk⟩).2 := by
      intro k hk
      have hk' : k + 1 < ((b, e) :: rest).length := by
        simp
        omega
      have := h (k + 1) hk'
      rw [bests_after_cons] at this
      simpa using this
    rw [if_neg h0, ih (consume_step init b) hrest, List.length_cons, bests_after_cons]

/-- If `k` is the first position whose processed candidate triggers a
stop condition, the loop breaks there, holding the fold of the first
`k + 1` candidates. -/
lemma consumer_loop_first_stop (t : Nat) (T : Duration) :
    ∀ (l : List (Nugget × Duration)) (init : Nugget) (k : Nat) (hk : k < l.length),
      (∀ j, (hj : j < l.length) → j < k →
        ¬ stop_cond t T (bests_after init l (j + 1)) (l.get ⟨j, hj⟩).2) →
      stop_cond t T (bests_after init l (k + 1)) (l.get ⟨k, hk⟩).2 →
      consumer_loop t T init l = (bests_after init l (k + 1), true) := by
  intro l
  induction l with
  | nil =>
    intro init k hk
    exact absurd hk (by simp)
  | cons p rest ih =>
    intro init k hk hmin hstop
    obtain ⟨b, e⟩ := p
    rw [consumer_loop_cons]
    cases k with
    | zero =>
      rw [bests_after_cons, bests_after_zero] at hstop
      have hstop' : stop_cond t T (consume_step init b) e := by
        simpa using hstop
      rw [if_pos hstop', bests_after_cons, bests_after_zero]
    | succ n =>
      have h0 : ¬ stop_cond t T (consume_step init b) e := by
        have := hmin 0 (by simp) (Nat.succ_pos n)
        rw [bests_after_cons, bests_after_zero] at this
        simpa using this
      have hn : n < rest.length := by
        simpa using hk
      have hminr : ∀ j, (hj : j < rest.length) → j < n →
          ¬ stop_cond t T (bests_after (consume_step init b) rest (j + 1))
            (rest.get ⟨j, hj⟩).2 := by
        intro j hj hjn
        have hj' : j + 1 < ((b, e) :: rest).length := by
          simp
          omega
        have := hmin (j + 1) hj' (by omega)
        rw [bests_after_cons] at this
        simpa using this
      have hstopr : stop_cond t T (bests_after (consume_step init b) rest (n + 1))
          (rest.get ⟨n, hn⟩).2 := by
        rw [bests_after_cons] at hstop
        simpa using hstop
      rw [if_neg h0, ih (consume_step init b) n hn hminr hstopr, bests_after_cons]

/-- C7 (amended): after each received candidate — and only then — the
coordinator evaluates the stop conditions and exits its loop exactly
when the global best's zero count has reached the target or the sampled
elapsed time exceeds the effective timeout, reporting the global best
folded over the processed candidates; a configured timeout of `0` sets
the effective timeout to `2^64 - 1` seconds (so the time-based condition
can only fire for elapsed times beyond `2^64 - 1` seconds, never in
practice), and any other configured value is used as that many whole
seconds. -/
theorem consumer_loop_stop_characterization (t cfg : Nat) (l : List (Nugget × Duration)) :
    effective_timeout 0 = Duration.mk u64_max 0
    ∧ (cfg ≠ 0 → effective_timeout cfg = Duration.mk cfg 0)
    ∧ ((∀ k, (hk : k < l.length) →
          ¬ stop_cond t (effective_timeout cfg) (bests_after (Nugget.mk 0 0) l (k + 1))
            (l.get ⟨k, hk⟩).2) →
        consumer_loop t (effective_timeout cfg) (Nugget.mk 0 0) l
          = (bests_after (Nugget.mk 0 0) l l.length, false))
    ∧ (∀ k, (hk : k < l.length) →
        (∀ j, (hj : j < l.length) → j < k →
          ¬ stop_cond t (effective_timeout cfg) (bests_after (Nugget.mk 0 0) l (j + 1))
            (l.get ⟨j, hj⟩).2) →
        stop_cond t (effective_timeout cfg) (bests_after (Nugget.mk 0 0) l (k + 1))
          (l.get ⟨k, hk⟩).2 →
        consumer_loop t (effective_timeout cfg) (Nugget.mk 0 0) l
          = (bests_after (Nugget.mk 0 0) l (k + 1), true)) := by
  refine ⟨rfl, ?_, ?_, ?_⟩
  · intro hcfg
    unfold effective_timeout
    rw [if_neg hcfg]
  · exact consumer_loop_no_stop t (effective_timeout cfg) l (Nugget.mk 0 0)
  · exact fun k hk => consumer_loop_first_stop t (effective_timeout cfg) l
      (Nugget.mk 0 0) k hk

/-- C7 witness: `consumer_loop_stop_characterization` at a concrete run
whose first candidate reaches the target, so the loop breaks there. -/
theorem consumer_loop_stop_characterization_witness :
    consumer_loop 1 (effective_timeout 5) (Nugget.mk 0 0)
        [(Nugget.mk 7 1, Duration.mk 0 0)]
      = (bests_after (Nugget.mk 0 0) [(Nugget.mk 7 1, Duration.mk 0 0)] (0 + 1), true) :=
  (consumer_loop_stop_characterization 1 5 [(Nugget.mk 7 1, Duration.mk 0 0)]).2.2.2 0
    (by decide) (fun j hj hj0 => absurd hj0 (Nat.not_lt_zero j)) (by decide)

/-- C7 counterexample: with a configured timeout of `0` the time-based
stop condition is not unsatisfiable — at the representable elapsed
duration of `2^64 - 1` seconds and one nanosecond the loop exits on time
even though the best's zero count (0) is below the target (6). -/
theorem timeout_zero_fires_counterexample :
    (consumer_loop 6 (effective_timeout 0) (Nugget.mk 0 0)
        [(Nugget.mk 0 0, Duration.mk u64_max 1)]).2 = true
    ∧ (Nugget.mk 0 0).zeros < 6 := by
  constructor
  · decide
  · decide

/-! ### The shared nonce counter -/

lemma consumer_loop_disconnect_foldl (t : Nat) (T : Duration) :
    ∀ (l : List (Nugget × Duration)) (init : Nugget),
      (consumer_loop t T init l).2 = false →
      (consumer_loop t T init l).1 = (l.map Prod.fst).foldl consume_step init := by
  intro l
  induction l with
  | nil => intro init h; rfl
  | cons p rest ih =>
    intro init h
    obtain ⟨b, e⟩ := p
    rw [consumer_loop_cons] at h ⊢
    by_cases hs : stop_cond t T (consume_step init b) e
    · rw [if_pos hs] at h
      simp at h
    · rw [if_neg hs] at h ⊢
      simp only [List.map_cons, List.foldl_cons]
      exact ih _ h

/-- C9 (amended): when the aggregation channel becomes disconnected
while the coordinator is still receiving, the receive loop terminates
normally — having processed every arrival — and the coordinator falls
through to printing the final best result with a success exit status; no
abort occurs. -/
theorem disconnect_exits_normally (t cfg : Nat) (l : List (Nugget × Duration)) :
    (consumer_loop t (effective_timeout cfg) (Nugget.mk 0 0) l).2 = false →
      coordinator_end t cfg l
          = ProcessEnd.success ((l.map Prod.fst).foldl consume_step (Nugget.mk 0 0))
        ∧ coordinator_end t cfg l ≠ ProcessEnd.abort := by
  intro h
  unfold coordinator_end
  rw [consumer_loop_disconnect_foldl _ _ _ _ h]
  exact ⟨rfl, by simp⟩

/-- C9 witness: `disconnect_exits_normally` at the concrete run where
the channel disconnects before any candidate arrives. -/
theorem disconnect_exits_normally_witness :
    coordinator_end 6 0 []
        = ProcessEnd.success ((([] : List (Nugget × Duration)).map Prod.fst).foldl
            consume_step (Nugget.mk 0 0))
      ∧ coordinator_end 6 0 [] ≠ ProcessEnd.abort :=
  disconnect_exits_normally 6 0 [] rfl

/-- C9 counterexample: at the concrete input where every sender is gone
before any candidate arrives, the loop ends by disconnection (not by a
stop condition) and the process still ends with the normal success
output of the final best — it does not abort. -/
theorem disconnect_prints_best_counterexample :
    (consumer_loop 6 (effective_timeout 0) (Nugget.mk 0 0) []).2 = false
    ∧ coordinator_end 6 0 [] = ProcessEnd.success (Nugget.mk 0 0)
    ∧ coordinator_end 6 0 [] ≠ ProcessEnd.abort := by
  refine ⟨rfl, rfl, ?_⟩
  decide

end GitCommitMine
